import Mathlib

/-!
# Verification of the snorkel/fonduer structural document parser

Shallow embedding of `src/fonduer/parser.py` (OmniParserUDF.parse_structure,
TableInfo, CoreNLPHandler) and of `src/snorkel/parser.py`
(CoreNLPHandler.parse), together with theorems settling the frozen claims
about table-grid geometry, batch splitting, offset reconciliation, phrase
assembly and identifier construction.
-/

namespace Snorkel

/-! ## Entities created during the walk

`Table`, `Cell` and the tabular parent reference, mirroring the objects
built by `TableInfo.enter_tabular`.  `table_idx` starts at `-1` in
`parse_structure`, so table positions are integers. -/

/-- The `Table` entity: `Table(document=..., position=table_idx)`. -/
structure TableRec where
  position : Int
  deriving DecidableEq, Repr

/-- The `Cell` entity, as assembled in `TableInfo.enter_tabular` for a
`td`/`th` node (`parts["row_start"] = row_start`, etc.). -/
structure CellRec where
  tablePos : Int
  row_start : Nat
  row_end : Nat
  col_start : Nat
  col_end : Nat
  position : Nat
  deriving DecidableEq, Repr

/-- The tabular parent of a block: `TableInfo.parent` is the `Document`,
a `Table`, a `Cell`, or `None` (the default of `TableInfo.__init__`).
`isinstance` dispatch in `apply_tabular` recognizes the first three;
anything else hits the `raise NotImplementedError` branch. -/
inductive Parent where
  | doc : Parent
  | table : TableRec → Parent
  | cell : CellRec → Parent
  | none : Parent
  deriving DecidableEq, Repr

/-- The inclusive grid rectangle `[row_start..row_end] × [col_start..col_end]`
claimed by a cell (`itertools.product(range(row_start, row_end+1),
range(col_start, col_end+1))`). -/
def CellRec.rect (c : CellRec) : Finset (Nat × Nat) :=
  Finset.Icc c.row_start c.row_end ×ˢ Finset.Icc c.col_start c.col_end

/-! ## The table grid state machine (`TableInfo`)

The grid occupancy (`self.table_grid`, a `defaultdict(int)` used as a set of
occupied `(row, col)` pairs) is modelled as a `Finset (Nat × Nat)`.

The grid is kept OUTSIDE `TInfo`: in the Python source the constructor
default `table_grid=defaultdict(int)` is evaluated once at function
definition time, so every `TableInfo` created without an explicit
`table_grid` argument (which is every `TableInfo` in this program) shares
one and the same dictionary object.  The embedding therefore threads a
single global grid through the walk, exactly as the program does. -/

/-- Per-instance state of one `TableInfo` object (all fields except the
shared `table_grid`). -/
structure TInfo where
  table : Option TableRec
  cell : Option CellRec
  cellIdx : Nat
  rowIdx : Nat
  colIdx : Nat
  cellPosition : Nat
  parent : Parent
  deriving DecidableEq, Repr

/-- `TableInfo(document, parent=document)` — the top-level instance made in
`parse_structure`. -/
def TInfo.initial : TInfo :=
  ⟨none, none, 0, 0, 0, 0, Parent.doc⟩

/-- `TableInfo(document=table_info.document)` — the fresh instance made when
recursing into a nested `table` element (its `parent` defaults to `None`). -/
def TInfo.fresh : TInfo :=
  ⟨none, none, 0, 0, 0, 0, Parent.none⟩

/-- Fuelled form of the column scan of `enter_tabular`.  One unit of fuel
allows one `col_idx += 1` step. -/
def scanFreeAux (grid : Finset (Nat × Nat)) (r : Nat) : Nat → Nat → Nat
  | 0, c => c
  | fuel + 1, c => if (r, c) ∈ grid then scanFreeAux grid r fuel (c + 1) else c

/-- The column scan of `enter_tabular` for a `td`/`th` node:
`while self.table_grid[(self.row_idx, self.col_idx)]: self.col_idx += 1`.
The loop terminates because the occupancy set is finite; the fuel
`grid.sup Prod.snd + 1 - c` is enough to carry the cursor past every
occupied column, after which the guard is surely false, so the fuelled
recursion computes exactly the loop's result. -/
def scanFree (grid : Finset (Nat × Nat)) (r : Nat) (c : Nat) : Nat :=
  scanFreeAux grid r (grid.sup Prod.snd + 1 - c) c

theorem scanFreeAux_not_mem (grid : Finset (Nat × Nat)) (r : Nat) :
    ∀ fuel c, grid.sup Prod.snd < c + fuel →
      (r, scanFreeAux grid r fuel c) ∉ grid := by
  intro fuel
  induction fuel with
  | zero =>
    intro c hc hm
    have : c ≤ grid.sup Prod.snd :=
      @Finset.le_sup Nat (Nat × Nat) _ _ grid Prod.snd (r, c) hm
    omega
  | succ n ih =>
    intro c hc
    rw [scanFreeAux]
    by_cases hm : (r, c) ∈ grid
    · rw [if_pos hm]; exact ih (c + 1) (by omega)
    · rw [if_neg hm]; exact hm

theorem scanFree_not_mem (grid : Finset (Nat × Nat)) (r c : Nat) :
    (r, scanFree grid r c) ∉ grid :=
  scanFreeAux_not_mem grid r _ c (by omega)

theorem scanFreeAux_ge (grid : Finset (Nat × Nat)) (r : Nat) :
    ∀ fuel c, c ≤ scanFreeAux grid r fuel c := by
  intro fuel
  induction fuel with
  | zero => intro c; exact Nat.le_refl c
  | succ n ih =>
    intro c
    rw [scanFreeAux]
    by_cases hm : (r, c) ∈ grid
    · rw [if_pos hm]; exact (Nat.le_succ c).trans (ih (c + 1))
    · rw [if_neg hm]

theorem scanFree_ge (grid : Finset (Nat × Nat)) (r c : Nat) :
    c ≤ scanFree grid r c :=
  scanFreeAux_ge grid r _ c

theorem scanFreeAux_min (grid : Finset (Nat × Nat)) (r : Nat) :
    ∀ fuel c c', c ≤ c' → c' < scanFreeAux grid r fuel c → (r, c') ∈ grid := by
  intro fuel
  induction fuel with
  | zero => intro c c' hc hlt; rw [scanFreeAux] at hlt; omega
  | succ n ih =>
    intro c c' hc hlt
    rw [scanFreeAux] at hlt
    by_cases hm : (r, c) ∈ grid
    · rw [if_pos hm] at hlt
      rcases Nat.eq_or_lt_of_le hc with rfl | hc'
      · exact hm
      · exact ih (c + 1) c' hc' hlt
    · rw [if_neg hm] at hlt; omega

theorem scanFree_min (grid : Finset (Nat × Nat)) (r c : Nat) :
    ∀ c', c ≤ c' → c' < scanFree grid r c → (r, c') ∈ grid :=
  fun c' hc hlt => scanFreeAux_min grid r _ c c' hc hlt

/-- The coordinates marked occupied for a `td`/`th` with the given spans:
`itertools.product(range(row_start, row_end+1), range(col_start, col_end+1))`
where `row_end + 1 = row_start + rowspan` and `col_end + 1 = col_start +
colspan` (in Python integer arithmetic, valid also for span `0`). -/
def marking (rowStart colStart rs cs : Nat) : Finset (Nat × Nat) :=
  Finset.Ico rowStart (rowStart + rs) ×ˢ Finset.Ico colStart (colStart + cs)

/-- `TableInfo.enter_tabular(self, node, table_idx)`: dispatch on the node
tag, updating the instance state, the (shared) grid, and the table index.
`rowspan`/`colspan` are the parsed values of the node's attributes when
present. -/
def enterTabular (tag : String) (rowspan colspan : Option Nat)
    (t : TInfo) (grid : Finset (Nat × Nat)) (tableIdx : Int) :
    TInfo × Finset (Nat × Nat) × Int :=
  match tag with
  | "table" =>
    let tableIdx' := tableIdx + 1
    let tb : TableRec := ⟨tableIdx'⟩
    ({ t with rowIdx := 0, cellPosition := 0, table := some tb,
              parent := Parent.table tb },
     ∅, tableIdx')
  | "tr" =>
    ({ t with colIdx := 0 }, grid, tableIdx)
  | "td" | "th" =>
    let colStart := scanFree grid t.rowIdx t.colIdx
    let rowStart := t.rowIdx
    let rowEnd := rowStart + rowspan.getD 1 - 1
    let colEnd := colStart + colspan.getD 1 - 1
    let grid' := grid ∪ marking rowStart colStart (rowspan.getD 1) (colspan.getD 1)
    let c : CellRec :=
      ⟨(t.table.map (·.position)).getD 0, rowStart, rowEnd, colStart, colEnd,
       t.cellPosition⟩
    ({ t with colIdx := colStart, cell := some c, parent := Parent.cell c },
     grid', tableIdx)
  | _ =>
    (t, grid, tableIdx)

/-- `TableInfo.exit_tabular(self, node)`. -/
def exitTabular (tag : String) (t : TInfo) : TInfo :=
  match tag with
  | "table" =>
    { t with table := none, parent := Parent.doc }
  | "tr" =>
    { t with rowIdx := t.rowIdx + 1 }
  | "td" | "th" =>
    { t with cell := none, colIdx := t.colIdx + 1, cellIdx := t.cellIdx + 1,
             cellPosition := t.cellPosition + 1,
             parent := match t.table with
                       | some tb => Parent.table tb
                       | none => Parent.none }
  | _ => t

/-! ## A single table's event sequence

`runTable` runs the `TableInfo` machine over one `<table>` whose rows
contain plain `td` cells (no nested tables): the walker enters the table
node, then for each `tr` enters the row, enters and exits each `td`, exits
the row, and finally exits the table — collecting the `Cell` entities
created on the way.  A cell spec is the pair of optional `rowspan`/`colspan`
attribute values. -/

/-- State while running one table: the `TableInfo` instance, the shared
grid, and the cells created so far (in creation order). -/
abbrev TState := TInfo × Finset (Nat × Nat) × List CellRec

/-- Process one `td` node with the given spans (enter, collect the created
`Cell`, exit). -/
def runCell (st : TState) (spec : Option Nat × Option Nat) : TState :=
  let r := enterTabular "td" spec.1 spec.2 st.1 st.2.1 0
  (exitTabular "td" r.1, r.2.1,
   st.2.2 ++ (match r.1.cell with | some c => [c] | none => []))

/-- Process one `tr` node containing the given cells. -/
def runRow (st : TState) (row : List (Option Nat × Option Nat)) : TState :=
  let e := enterTabular "tr" none none st.1 st.2.1 0
  let r := row.foldl runCell (e.1, e.2.1, st.2.2)
  (exitTabular "tr" r.1, r.2.1, r.2.2)

/-- Process one `<table>` element whose rows are `rows`, starting the
machine the way `parse_structure` does (fresh `TableInfo`, table index
`-1`). -/
def runTable (rows : List (List (Option Nat × Option Nat))) : TState :=
  let e := enterTabular "table" none none TInfo.initial ∅ (-1)
  let r := rows.foldl runRow (e.1, e.2.1, [])
  (exitTabular "table" r.1, r.2.1, r.2.2)

/-- The cells created while parsing one table. -/
def tableCells (rows : List (List (Option Nat × Option Nat))) : List CellRec :=
  (runTable rows).2.2

/-! ## Geometry facts about one table -/

/-- Asserts that a later cell `b`'s anchor `(row_start, col_start)` does not
lie in an earlier cell `a`'s rectangle. -/
def anchorFresh (a b : CellRec) : Prop := (b.row_start, b.col_start) ∉ a.rect

instance (a b : CellRec) : Decidable (anchorFresh a b) := by
  unfold anchorFresh; infer_instance

/-- A cell spec's `rowspan`/`colspan` attributes, when present, are at least
`1` (as they are in any well-formed HTML table). -/
def spanOK (spec : Option Nat × Option Nat) : Prop :=
  1 ≤ spec.1.getD 1 ∧ 1 ≤ spec.2.getD 1

instance (spec : Option Nat × Option Nat) : Decidable (spanOK spec) := by
  unfold spanOK; infer_instance

/-- Invariant of the running table state: every created cell's rectangle is
recorded in the occupancy grid, and anchors of later cells avoid the
rectangles of earlier cells. -/
def TState.Inv (st : TState) : Prop :=
  (∀ c ∈ st.2.2, c.rect ⊆ st.2.1) ∧ List.Pairwise anchorFresh st.2.2

theorem rect_eq_marking (tp : Int) (r c rs cs p : Nat) (hrs : 1 ≤ rs)
    (hcs : 1 ≤ cs) :
    CellRec.rect ⟨tp, r, r + rs - 1, c, c + cs - 1, p⟩ = marking r c rs cs := by
  unfold CellRec.rect marking
  simp only
  congr 1 <;> rw [← Nat.Ico_succ_right] <;> congr 1 <;> omega

theorem runCell_eq (t : TInfo) (grid : Finset (Nat × Nat))
    (cells : List CellRec) (spec : Option Nat × Option Nat) :
    runCell (t, grid, cells) spec =
      (exitTabular "td"
        { t with colIdx := scanFree grid t.rowIdx t.colIdx,
                 cell := some ⟨(t.table.map (·.position)).getD 0, t.rowIdx,
                   t.rowIdx + spec.1.getD 1 - 1,
                   scanFree grid t.rowIdx t.colIdx,
                   scanFree grid t.rowIdx t.colIdx + spec.2.getD 1 - 1,
                   t.cellPosition⟩,
                 parent := Parent.cell ⟨(t.table.map (·.position)).getD 0,
                   t.rowIdx, t.rowIdx + spec.1.getD 1 - 1,
                   scanFree grid t.rowIdx t.colIdx,
                   scanFree grid t.rowIdx t.colIdx + spec.2.getD 1 - 1,
                   t.cellPosition⟩ },
       grid ∪ marking t.rowIdx (scanFree grid t.rowIdx t.colIdx)
         (spec.1.getD 1) (spec.2.getD 1),
       cells ++ [⟨(t.table.map (·.position)).getD 0, t.rowIdx,
         t.rowIdx + spec.1.getD 1 - 1, scanFree grid t.rowIdx t.colIdx,
         scanFree grid t.rowIdx t.colIdx + spec.2.getD 1 - 1,
         t.cellPosition⟩]) := rfl

theorem inv_runCell (st : TState) (spec : Option Nat × Option Nat)
    (hs : spanOK spec) (h : st.Inv) : (runCell st spec).Inv := by
  obtain ⟨t, grid, cells⟩ := st
  obtain ⟨hsub, hpw⟩ := h
  rw [runCell_eq]
  constructor
  · intro c hc
    simp only [List.mem_append, List.mem_singleton] at hc
    rcases hc with hc | rfl
    · exact (hsub c hc).trans Finset.subset_union_left
    · rw [rect_eq_marking _ _ _ _ _ _ hs.1 hs.2]
      exact Finset.subset_union_right
  · rw [List.pairwise_append]
    refine ⟨hpw, List.pairwise_singleton _ _, ?_⟩
    intro a ha b hb
    simp only [List.mem_singleton] at hb
    subst hb
    intro hmem
    exact scanFree_not_mem grid t.rowIdx t.colIdx (hsub a ha hmem)

theorem inv_foldl_runCell (l : List (Option Nat × Option Nat)) :
    ∀ st : TState, (∀ s ∈ l, spanOK s) → st.Inv →
      (l.foldl runCell st).Inv := by
  induction l with
  | nil => intro st _ h; exact h
  | cons s rest ih =>
    intro st hs h
    exact ih _ (fun x hx => hs x (List.mem_cons_of_mem _ hx))
      (inv_runCell st s (hs s (List.mem_cons_self _ _)) h)

theorem inv_resplit (t : TInfo) (st : TState) (h : st.Inv) :
    TState.Inv (t, st.2.1, st.2.2) := h

theorem inv_runRow (st : TState) (row : List (Option Nat × Option Nat))
    (hs : ∀ s ∈ row, spanOK s) (h : st.Inv) : (runRow st row).Inv := by
  have h1 : TState.Inv
      ((enterTabular "tr" none none st.1 st.2.1 0).1,
       (enterTabular "tr" none none st.1 st.2.1 0).2.1, st.2.2) := h
  exact inv_resplit _ _ (inv_foldl_runCell row _ hs h1)

theorem inv_foldl_runRow (rows : List (List (Option Nat × Option Nat))) :
    ∀ st : TState, (∀ row ∈ rows, ∀ s ∈ row, spanOK s) → st.Inv →
      (rows.foldl runRow st).Inv := by
  induction rows with
  | nil => intro st _ h; exact h
  | cons r rest ih =>
    intro st hs h
    exact ih _ (fun x hx => hs x (List.mem_cons_of_mem _ hx))
      (inv_runRow st r (hs r (List.mem_cons_self _ _)) h)

theorem runTable_inv (rows : List (List (Option Nat × Option Nat)))
    (hs : ∀ row ∈ rows, ∀ s ∈ row, spanOK s) : (runTable rows).Inv := by
  have h0 : TState.Inv
      ((enterTabular "table" none none TInfo.initial ∅ (-1)).1,
       (enterTabular "table" none none TInfo.initial ∅ (-1)).2.1, []) := by
    constructor
    · intro c hc; cases hc
    · exact List.Pairwise.nil
  exact inv_resplit _ _ (inv_foldl_runRow rows _ hs h0)

/-- The geometric contract of `enter_tabular` on a `td`/`th` node: the
created cell's anchor row is the row cursor, its anchor column is the first
free column at or after the column cursor, the span attributes (default
`1`) determine the inclusive rectangle ends, and the updated grid marks
exactly the old occupancy plus that rectangle.  (The `td` branch of
`enter_tabular` ignores the table index, so it is fixed to `0` here.) -/
def tdGeometry (grid : Finset (Nat × Nat)) (t : TInfo)
    (rowspan colspan : Option Nat) : Prop :=
  ∃ c : CellRec,
    (enterTabular "td" rowspan colspan t grid 0).1.cell = some c ∧
    c.row_start = t.rowIdx ∧
    t.colIdx ≤ c.col_start ∧
    (c.row_start, c.col_start) ∉ grid ∧
    (∀ x, t.colIdx ≤ x → x < c.col_start → (c.row_start, x) ∈ grid) ∧
    c.row_end = c.row_start + rowspan.getD 1 - 1 ∧
    c.col_end = c.col_start + colspan.getD 1 - 1 ∧
    (∀ p : Nat × Nat, p ∈ (enterTabular "td" rowspan colspan t grid 0).2.1 ↔
      p ∈ grid ∨ (c.row_start ≤ p.1 ∧ p.1 ≤ c.row_end ∧
                  c.col_start ≤ p.2 ∧ p.2 ≤ c.col_end))

/-- C5: on entering a `td`/`th`, the column cursor is advanced past every
occupied `(row_cursor, col_cursor)` so that `col_start` is the first free
column; `row_end = row_start + rowspan - 1` and
`col_end = col_start + colspan - 1` with spans defaulting to 1; every
`(r, c)` of the rectangle is marked occupied.  Concretely, a cell with
`rowspan=2`, `colspan=3` at `(0,0)` occupies `{0,1} × {0,1,2}` and the next
cell in row 0 receives `col_start = 3`. -/
theorem c5_td_span_geometry :
    (∀ (grid : Finset (Nat × Nat)) (t : TInfo) (rowspan colspan : Option Nat),
      1 ≤ rowspan.getD 1 → 1 ≤ colspan.getD 1 →
      tdGeometry grid t rowspan colspan) ∧
    tableCells [[(some 2, some 3), (none, none)]] =
      [⟨0, 0, 1, 0, 2, 0⟩, ⟨0, 0, 0, 3, 3, 1⟩] ∧
    (runTable [[(some 2, some 3)]]).2.1 = Finset.Icc 0 1 ×ˢ Finset.Icc 0 2 := by
  refine ⟨?_, by decide, by decide⟩
  intro grid t rowspan colspan hrs hcs
  refine ⟨⟨(t.table.map (·.position)).getD 0, t.rowIdx,
    t.rowIdx + rowspan.getD 1 - 1, scanFree grid t.rowIdx t.colIdx,
    scanFree grid t.rowIdx t.colIdx + colspan.getD 1 - 1, t.cellPosition⟩,
    rfl, rfl, scanFree_ge grid t.rowIdx t.colIdx,
    scanFree_not_mem grid t.rowIdx t.colIdx,
    scanFree_min grid t.rowIdx t.colIdx, rfl, rfl, ?_⟩
  intro p
  show p ∈ grid ∪ marking t.rowIdx (scanFree grid t.rowIdx t.colIdx)
      (rowspan.getD 1) (colspan.getD 1) ↔
    p ∈ grid ∨ (t.rowIdx ≤ p.1 ∧ p.1 ≤ t.rowIdx + rowspan.getD 1 - 1 ∧
      scanFree grid t.rowIdx t.colIdx ≤ p.2 ∧
      p.2 ≤ scanFree grid t.rowIdx t.colIdx + colspan.getD 1 - 1)
  rw [Finset.mem_union, marking, Finset.mem_product, Finset.mem_Ico,
    Finset.mem_Ico]
  constructor
  · rintro (h | ⟨⟨h1, h2⟩, h3, h4⟩)
    · exact Or.inl h
    · exact Or.inr ⟨h1, by omega, h3, by omega⟩
  · rintro (h | ⟨h1, h2, h3, h4⟩)
    · exact Or.inl h
    · exact Or.inr ⟨⟨h1, by omega⟩, h3, by omega⟩

/-- Witness for `c5_td_span_geometry`: its hypotheses hold (and the
geometry contract follows) at the concrete spans `rowspan=2`, `colspan=3`
on the empty grid. -/
theorem c5_td_span_geometry_witness :
    (1 ≤ (some 2 : Option Nat).getD 1) ∧ (1 ≤ (some 3 : Option Nat).getD 1) ∧
    tdGeometry ∅ TInfo.initial (some 2) (some 3) :=
  ⟨by decide, by decide,
   c5_td_span_geometry.1 ∅ TInfo.initial (some 2) (some 3) (by decide)
     (by decide)⟩

/-- C1 counterexample: in the table
`<tr><td/><td rowspan=2/></tr><tr><td colspan=2/></tr>`, the second and
third cells created for the same table have overlapping `(row, col)`
rectangles — both claim `(1, 1)` — so the rectangles of distinct cells of
one table are NOT pairwise disjoint. -/
theorem c1_counterexample :
    tableCells [[(none, none), (some 2, none)], [(none, some 2)]] =
      [⟨0, 0, 0, 0, 0, 0⟩, ⟨0, 0, 1, 1, 1, 1⟩, ⟨0, 1, 1, 0, 1, 2⟩] ∧
    (⟨0, 0, 1, 1, 1, 1⟩ : CellRec) ≠ ⟨0, 1, 1, 0, 1, 2⟩ ∧
    (1, 1) ∈ CellRec.rect ⟨0, 0, 1, 1, 1, 1⟩ ∧
    (1, 1) ∈ CellRec.rect ⟨0, 1, 1, 0, 1, 2⟩ := by
  refine ⟨by decide, by decide, by decide, by decide⟩

/-! ## The document tree walker (`parse_structure` / `parse_node` / `flatten`)

An element of the lxml tree: tag, parsed `rowspan`/`colspan` attribute
values (present iff the attribute is present), `text`, `tail`, children,
and a flag for `etree.Comment` nodes.  `parse_node` pre-flattens a node's
children before extracting text, so the walker threads, for each child, the
tail string as possibly rewritten by the parent's flatten pass (the only
field of a surviving child that flattening can modify). -/

inductive Elem : Type where
  | mk (tag : String) (rowspan colspan : Option Nat)
       (text tail : Option String) (children : List Elem) (isComment : Bool)

def Elem.tag : Elem → String
  | .mk tg _ _ _ _ _ _ => tg

def Elem.rowspan : Elem → Option Nat
  | .mk _ rs _ _ _ _ _ => rs

def Elem.colspan : Elem → Option Nat
  | .mk _ _ cs _ _ _ _ => cs

def Elem.text : Elem → Option String
  | .mk _ _ _ tx _ _ _ => tx

def Elem.tail : Elem → Option String
  | .mk _ _ _ _ tl _ _ => tl

def Elem.children : Elem → List Elem
  | .mk _ _ _ _ _ ch _ => ch

def Elem.isComment : Elem → Bool
  | .mk _ _ _ _ _ _ cm => cm

/-- Python `str.strip()`: remove leading and trailing whitespace. -/
def pyStrip (s : String) : String :=
  ⟨((s.data.dropWhile Char.isWhitespace).reverse.dropWhile
      Char.isWhitespace).reverse⟩

/-- A text or tail fragment kept by the flatten pass:
`if descendant.text and descendant.text.strip(): contents.append(descendant.text)`
(the unstripped string is appended; `None`, empty and whitespace-only
strings are skipped). -/
def fragOf : Option String → List String
  | some s => if pyStrip s ≠ "" then [s] else []
  | none => []

/-- `self.flatten_delim.join(contents)` — Python `str.join` semantics. -/
def joinWith (d : String) : List String → String
  | [] => ""
  | [s] => s
  | s :: rest => s ++ d ++ joinWith d rest

mutual

/-- `child.getiterator()` visits the subtree in document order and the loop
appends each visited element's `text` and `tail` fragments in that order. -/
def collect : Elem → List String
  | .mk _ _ _ tx tl cs _ => fragOf tx ++ fragOf tl ++ collectList cs

/-- Fragment collection over a list of sibling subtrees. -/
def collectList : List Elem → List String
  | [] => []
  | c :: rest => collect c ++ collectList rest

end

mutual

/-- Height of an element tree (used as walker fuel). -/
def Elem.depth : Elem → Nat
  | .mk _ _ _ _ _ cs _ => 1 + Elem.depthList cs

/-- Maximum height over sibling subtrees. -/
def Elem.depthList : List Elem → Nat
  | [] => 0
  | c :: rest => max (Elem.depth c) (Elem.depthList rest)

end

/-- Fragments of a child whose `tail` was rewritten (by an already-processed
flatten step on a later sibling) to `tl`. -/
def collectWith (e : Elem) (tl : Option String) : List String :=
  match e with
  | .mk _ _ _ tx _ cs _ => fragOf tx ++ fragOf tl ++ collectList cs

/-- Configuration of `OmniParserUDF` relevant to the walk.  `repl` is the
composed effect of the configured regex `replacements` on one string. -/
structure WalkCfg where
  blacklist : List String
  flattenTags : List String
  flattenDelim : String
  strip : Bool
  repl : String → String

/-- The `OmniParser` defaults: `blacklist=["style"]`, `flatten=['span','br']`,
`flatten_delim=''`, `strip=True`.  The default `replacements` rule rewrites
only Unicode dash code points, so on documents containing none of those
characters its effect is the identity, which is what `repl := id` models. -/
def defaultCfg : WalkCfg :=
  ⟨["style"], ["span", "br"], "", true, id⟩

/-- One pass of `flatten(node)` over the (reversed) child list.  The list
carries `(child, current tail)` pairs because splicing modifies the tail of
the preceding sibling; children whose tag is in the flatten set are removed
and their joined contents spliced into the preceding pair's tail (or into
the node's own `text` for the first child).  Fuel is one unit per list
element; `flattenChildren` supplies exactly the list length. -/
def flattenAux (cfg : WalkCfg) :
    Nat → Option String → List (Elem × Option String) →
      Option String × List (Elem × Option String)
  | 0, text, l => (text, l)
  | _ + 1, text, [] => (text, [])
  | fuel + 1, text, c :: rest =>
    if c.1.tag ∈ cfg.flattenTags then
      let joined := joinWith cfg.flattenDelim ("" :: collectWith c.1 c.2)
      match rest with
      | [] => (some (text.getD "" ++ joined), [])
      | (p, ptl) :: rest' =>
        flattenAux cfg fuel text ((p, some (ptl.getD "" ++ joined)) :: rest')
    else
      let r := flattenAux cfg fuel text rest
      (r.1, c :: r.2)

/-- `flatten(node)`: walk the children backwards, splice flattened
children's contents, and return the node's new `text` together with the
surviving children (each paired with its current tail). -/
def flattenChildren (cfg : WalkCfg) (text : Option String)
    (children : List Elem) :
    Option String × List (Elem × Option String) :=
  let init := (children.map (fun c => (c, c.tail))).reverse
  let r := flattenAux cfg init.length text init
  (r.1, r.2.reverse)

/-- Processing of one extracted string in `parse_node`: strip (when
configured), drop if empty, then apply the replacement rules. -/
def procText (cfg : WalkCfg) : Option String → Option String
  | none => none
  | some t =>
    let t1 := if cfg.strip then pyStrip t else t
    if t1.length ≠ 0 then some (cfg.repl t1) else none

/-- One extracted Block: its text and the tabular parent recorded at
extraction time (`parents.append(table_info.parent)`). -/
structure BlockRec where
  text : String
  parent : Parent
  deriving DecidableEq, Repr

/-- Shared walker state: the one global `table_grid` (see `TInfo`), the
`self.table_idx` counter, the extracted blocks, and every `Cell` entity
created during the walk (in creation order). -/
structure WalkState where
  grid : Finset (Nat × Nat)
  tableIdx : Int
  blocks : List BlockRec
  cells : List CellRec
  deriving DecidableEq

def WalkState.initial : WalkState := ⟨∅, -1, [], []⟩

/-- `parse_node(node, table_info)`, fuelled by tree depth: comment and
blacklist checks, `enter_tabular`, the flatten pass, extraction of the
node's `text` and (possibly parent-rewritten) `tail`, recursion into the
children — a child tagged `table` getting a fresh `TableInfo` whose shared
grid is the same global one — and finally `exit_tabular`. -/
def parseNodeF (cfg : WalkCfg) :
    Nat → Elem → Option String → TInfo → WalkState → TInfo × WalkState
  | 0, _, _, t, s => (t, s)
  | fuel + 1, e, tailOv, t, s =>
    if e.isComment then (t, s)
    else if e.tag ∈ cfg.blacklist then (t, s)
    else
      let en := enterTabular e.tag e.rowspan e.colspan t s.grid s.tableIdx
      let t1 := en.1
      let cellsObs : List CellRec :=
        if e.tag = "td" ∨ e.tag = "th" then
          match t1.cell with | some c => [c] | none => []
        else []
      let s1 : WalkState :=
        { s with grid := en.2.1, tableIdx := en.2.2,
                 cells := s.cells ++ cellsObs }
      let fl := if cfg.flattenTags.isEmpty
        then (e.text, e.children.map (fun c => (c, c.tail)))
        else flattenChildren cfg e.text e.children
      let s2 := match procText cfg fl.1 with
        | some txt => { s1 with blocks := s1.blocks ++ [⟨txt, t1.parent⟩] }
        | none => s1
      let s3 := match procText cfg tailOv with
        | some txt => { s2 with blocks := s2.blocks ++ [⟨txt, t1.parent⟩] }
        | none => s2
      let r := fl.2.foldl
        (fun (acc : TInfo × WalkState) (c : Elem × Option String) =>
          if c.1.tag = "table" then
            (acc.1, (parseNodeF cfg fuel c.1 c.2 TInfo.fresh acc.2).2)
          else
            parseNodeF cfg fuel c.1 c.2 acc.1 acc.2)
        (t1, s3)
      (exitTabular e.tag r.1, r.2)

/-- `parse_node(root, table_info)` from `parse_structure`: top-level
`TableInfo(document, parent=document)`, `table_idx = -1`, empty buffer.
`Elem.depth root` covers the tree height, so the fuel never runs out. -/
def walkDoc (cfg : WalkCfg) (root : Elem) : TInfo × WalkState :=
  parseNodeF cfg root.depth root root.tail TInfo.initial WalkState.initial

/-- The blocks extracted from a document. -/
def docBlocks (cfg : WalkCfg) (root : Elem) : List BlockRec :=
  (walkDoc cfg root).2.blocks

/-- The cells created while parsing a document. -/
def docCells (cfg : WalkCfg) (root : Elem) : List CellRec :=
  (walkDoc cfg root).2.cells

/-- The element tree of `<p>Hello<span>there</span>!</p>`: a `p` node with
`text "Hello"` and one `span` child with `text "there"` and `tail "!"`. -/
def pExample : Elem :=
  .mk "p" none none (some "Hello") none
    [.mk "span" none none (some "there") (some "!") [] false] false

/-- C9 counterexample: parsing `<p>Hello<span>there</span>!</p>` with the
default configuration (`span` in the flatten set, `flatten_delim=''`)
produces exactly one Block — but its text is `"Hellothere!"`, not
`"Hello there!"` as the claim states. -/
theorem c9_counterexample :
    docBlocks defaultCfg pExample = [⟨"Hellothere!", Parent.doc⟩] ∧
    ("Hellothere!" : String) ≠ "Hello there!" :=
  ⟨by decide, by decide⟩

/-- C9 (amended): the input yields a single Block whose text is
`"Hello" ++ d ++ "there" ++ d ++ "!"` where `d` is the configured
flatten-delimiter — the `contents` list starts with `''`, so the join
prefixes a delimiter, and the span's tail `"!"` is joined like any other
fragment.  For the default `d = ""` the text is `"Hellothere!"`; for
`d = " "` it is `"Hello there !"` (so no configuration produces
`"Hello there!"`). -/
theorem c9_flatten_single_block :
    docBlocks defaultCfg pExample = [⟨"Hellothere!", Parent.doc⟩] ∧
    docBlocks { defaultCfg with flattenDelim := " " } pExample =
      [⟨"Hello there !", Parent.doc⟩] :=
  ⟨by decide, by decide⟩

/-- A nested table with a single cell:
`<table><tr><td/></tr></table>`. -/
def nestedTableExample : Elem :=
  .mk "table" none none none none
    [.mk "tr" none none none none
      [.mk "td" none none none none [] false] false] false

/-- An outer table whose first cell spans two rows and contains
`nestedTableExample`, followed by a second row with one plain cell:
`<table><tr><td rowspan=2><table>…</table></td></tr><tr><td/></tr></table>`. -/
def outerTableExample : Elem :=
  .mk "table" none none none none
    [.mk "tr" none none none none
      [.mk "td" (some 2) none none none [nestedTableExample] false] false,
     .mk "tr" none none none none
      [.mk "td" none none none none [] false] false] false

/-- C3 (witnessing the defect): because `TableInfo.__init__`'s default
`table_grid=defaultdict(int)` is evaluated once, the "fresh" `TableInfo`
built for a nested table shares the outer table's grid; entering the
nested `<table>` clears it.  Starting from the state reached right after
the outer `rowspan=2` cell is placed (occupancy `{(0,0),(1,0)}`),
processing the nested table subtree leaves occupancy `{(0,0)}` — the outer
occupancy is NOT re-entered intact.  Consequently, in the full walk of
`outerTableExample`, the second outer-table cell is anchored at `(1,0)`,
inside the first outer cell's rectangle. -/
theorem c3_nested_table_clears_outer_grid :
    (parseNodeF defaultCfg 4 nestedTableExample none TInfo.fresh
        ⟨{(0, 0), (1, 0)}, 0, [], []⟩).2.grid = {(0, 0)} ∧
    ({(0, 0)} : Finset (Nat × Nat)) ≠ {(0, 0), (1, 0)} ∧
    docCells defaultCfg outerTableExample =
      [⟨0, 0, 1, 0, 0, 0⟩, ⟨1, 0, 0, 0, 0, 0⟩, ⟨0, 1, 1, 0, 0, 1⟩] ∧
    (1, 0) ∈ CellRec.rect ⟨0, 0, 1, 0, 0, 0⟩ ∧
    ((⟨0, 1, 1, 0, 0, 1⟩ : CellRec).row_start,
     (⟨0, 1, 1, 0, 0, 1⟩ : CellRec).col_start) = (1, 0) :=
  ⟨by decide, by decide, by decide, by decide, by decide⟩

/-- C1 (amended): what survives of the disjointness claim, with its exact
scope.  (1) For a table whose processing is NOT interrupted by a nested
table (rows of plain `td`/`th` cells), the `(row_start, col_start)` anchor
of every cell was free in the grid when the cell was placed, so it never
lies inside the rectangle of any earlier cell of that table — while full
rectangles of spanned cells may still overlap (see the counterexample).
(2) The restriction is necessary: because every `TableInfo` shares the one
default `table_grid`, a nested table clears the outer table's occupancy,
and then even the anchor property fails between cells of the same outer
table — in `outerTableExample` the outer table's second cell (`tablePos`
0, position 1) is anchored at `(1, 0)`, inside the first outer cell's
`rowspan=2` rectangle. -/
theorem c1_anchor_never_in_earlier_rect :
    (∀ rows : List (List (Option Nat × Option Nat)),
      (∀ row ∈ rows, ∀ s ∈ row, spanOK s) →
      List.Pairwise anchorFresh (tableCells rows)) ∧
    (docCells defaultCfg outerTableExample =
      [⟨0, 0, 1, 0, 0, 0⟩, ⟨1, 0, 0, 0, 0, 0⟩, ⟨0, 1, 1, 0, 0, 1⟩] ∧
     (⟨0, 0, 1, 0, 0, 0⟩ : CellRec).tablePos =
       (⟨0, 1, 1, 0, 0, 1⟩ : CellRec).tablePos ∧
     ¬ anchorFresh ⟨0, 0, 1, 0, 0, 0⟩ ⟨0, 1, 1, 0, 0, 1⟩) :=
  ⟨fun rows hs => (runTable_inv rows hs).2, by decide, by decide, by decide⟩

/-- Witness for `c1_anchor_never_in_earlier_rect` at the 2×2 flat table
with a `rowspan=2` and a `colspan=2` cell. -/
theorem c1_anchor_never_in_earlier_rect_witness :
    (∀ row ∈ [[(none, none), (some 2, none)], [(none, some 2)]],
      ∀ s ∈ row, spanOK s) ∧
    List.Pairwise anchorFresh
      (tableCells [[(none, none), (some 2, none)], [(none, some 2)]]) :=
  ⟨by decide, c1_anchor_never_in_earlier_rect.1 _ (by decide)⟩

/-! ## Stable phrase identifiers

`parts['stable_id'] = "%s::%s:%s:%s" % (document.name, 'phrase',
phrase_num, phrase_num)` — Python renders the integer in decimal. -/

/-- A decimal digit character. -/
def digitChar (d : Nat) : Char :=
  match d with
  | 0 => '0' | 1 => '1' | 2 => '2' | 3 => '3' | 4 => '4'
  | 5 => '5' | 6 => '6' | 7 => '7' | 8 => '8' | _ => '9'

/-- Decimal digits of `n`, fuelled (one digit per unit of fuel; `n + 1`
units always suffice). -/
def natReprAux : Nat → Nat → List Char
  | 0, _ => []
  | fuel + 1, n =>
    if n < 10 then [digitChar n]
    else natReprAux fuel (n / 10) ++ [digitChar (n % 10)]

/-- Python `str(n)` for a natural number. -/
def natRepr (n : Nat) : String := ⟨natReprAux (n + 1) n⟩

/-- The phrase stable identifier `"<name>::phrase:<n>:<n>"`. -/
def mkPhraseStableId (name : String) (n : Nat) : String :=
  name ++ "::phrase:" ++ natRepr n ++ ":" ++ natRepr n

/-! ## Phrase assembly (`apply_tabular` and the reconciliation loop) -/

/-- The fields of one assembled Phrase that the claims observe: the stable
identifier, the index of the block it was reconciled to, its `position`,
the tabular parent it was dispatched on, and the fields `apply_tabular`
copies from a `Table`/`Cell` parent. -/
structure PhraseRec where
  stableId : String
  parentIdx : Nat
  position : Nat
  parent : Parent
  table : Option TableRec := none
  cell : Option CellRec := none
  row_start : Option Nat := none
  row_end : Option Nat := none
  col_start : Option Nat := none
  col_end : Option Nat := none
  deriving DecidableEq, Repr

/-- `TableInfo.apply_tabular(self, parts, parent, position)`: set the
position, then dispatch on the parent's kind; an unrecognized kind raises
`NotImplementedError`. -/
def applyTabular (p : PhraseRec) (parent : Parent) (position : Nat) :
    Except String PhraseRec :=
  let p1 := { p with position := position }
  match parent with
  | Parent.doc => Except.ok p1
  | Parent.table tb => Except.ok { p1 with table := some tb }
  | Parent.cell c => Except.ok
      { p1 with table := some ⟨c.tablePos⟩, cell := some c,
                row_start := some c.row_start, row_end := some c.row_end,
                col_start := some c.col_start, col_end := some c.col_end }
  | Parent.none => Except.error "Phrase parent must be Document, Table, or Cell"

/-- The pointer advance
`while parsed + char_end > block_char_end[parent_idx]: parent_idx += 1`,
walking the remaining suffix of the `(block_char_end, parent)` table.
An empty result suffix means the walk ran off the table — in Python,
`block_char_end[parent_idx]` raises `IndexError` (caught by the loop's
bare `except`). -/
def advanceB (idx : Nat) (rem : List (Nat × Parent)) (target : Nat) :
    Nat × List (Nat × Parent) :=
  match rem with
  | [] => (idx, [])
  | b :: rest =>
    if target > b.1 then advanceB (idx + 1) rest target else (idx, b :: rest)

/-- The per-unit body of the annotation loop in `parse_structure`: for each
annotated unit (represented by its global end offset `parsed + char_end`),
advance the block pointer, reset `position` to 0 whenever the pointer
moved, assemble the phrase via `apply_tabular`, and emit it; any exception
(pointer off the end of the table, or `apply_tabular`'s
`NotImplementedError`) is caught by the bare `except` (a `pdb` trap), after
which the loop simply continues with the next unit, leaving `position` and
`phrase_num` un-incremented. -/
def procUnits (name : String) :
    List Nat → Nat → List (Nat × Parent) → Nat → Nat → List PhraseRec
  | [], _, _, _, _ => []
  | u :: us, idx, rem, pos, num =>
    let a := advanceB idx rem u
    let pos1 := if idx < a.1 then 0 else pos
    match a.2 with
    | [] => procUnits name us a.1 [] pos1 num
    | b :: rest =>
      match applyTabular
          ⟨mkPhraseStableId name num, a.1, 0, b.2, none, none, none, none,
           none, none⟩ b.2 pos1 with
      | Except.ok ph =>
        ph :: procUnits name us a.1 (b :: rest) (pos1 + 1) (num + 1)
      | Except.error _ => procUnits name us a.1 (b :: rest) pos1 num

/-- `np.cumsum(block_lengths)` paired with each block's parent. -/
def cumPairs (acc : Nat) : List (Nat × Parent) → List (Nat × Parent)
  | [] => []
  | b :: rest => (acc + b.1, b.2) :: cumPairs (acc + b.1) rest

/-- The whole reconciliation/assembly phase of `parse_structure`: blocks
are given as `(length, tabular parent)` pairs, annotated units as their
global end character offsets; `parent_idx`, `position` and `phrase_num`
all start at 0. -/
def assemble (name : String) (blocks : List (Nat × Parent))
    (units : List Nat) : List PhraseRec :=
  procUnits name units 0 (cumPairs 0 blocks) 0 0

theorem applyTabular_ok (p : PhraseRec) (parent : Parent) (pos : Nat)
    (ph : PhraseRec) (h : applyTabular p parent pos = Except.ok ph) :
    ph.parentIdx = p.parentIdx ∧ ph.stableId = p.stableId ∧
      ph.position = pos := by
  cases parent with
  | doc =>
    simp only [applyTabular, Except.ok.injEq] at h
    subst h; exact ⟨rfl, rfl, rfl⟩
  | table tb =>
    simp only [applyTabular, Except.ok.injEq] at h
    subst h; exact ⟨rfl, rfl, rfl⟩
  | cell c =>
    simp only [applyTabular, Except.ok.injEq] at h
    subst h; exact ⟨rfl, rfl, rfl⟩
  | none => exact Except.noConfusion h

theorem advanceB_ge (target : Nat) :
    ∀ rem idx, idx ≤ (advanceB idx rem target).1 := by
  intro rem
  induction rem with
  | nil => intro idx; exact Nat.le_refl idx
  | cons b rest ih =>
    intro idx
    rw [advanceB]
    by_cases h : target > b.1
    · rw [if_pos h]; exact (Nat.le_succ idx).trans (ih (idx + 1))
    · rw [if_neg h]

theorem procUnits_parentIdx_ge (name : String) :
    ∀ us idx rem pos num ph,
      ph ∈ procUnits name us idx rem pos num → idx ≤ ph.parentIdx := by
  intro us
  induction us with
  | nil =>
    intro idx rem pos num ph h
    simp only [procUnits] at h
    cases h
  | cons u us ih =>
    intro idx rem pos num ph h
    rw [procUnits] at h
    rcases hadv : advanceB idx rem u with ⟨idx', rem'⟩
    have hle : idx ≤ idx' := by
      have := advanceB_ge u rem idx
      rw [hadv] at this
      exact this
    rw [hadv] at h
    cases rem' with
    | nil =>
      dsimp only at h
      exact hle.trans (ih idx' [] _ _ ph h)
    | cons b rest =>
      dsimp only at h
      cases happ : applyTabular
          ⟨mkPhraseStableId name num, idx', 0, b.2, none, none, none, none,
           none, none⟩ b.2 (if idx < idx' then 0 else pos) with
      | ok ph' =>
        rw [happ] at h
        rcases List.mem_cons.mp h with rfl | h'
        · have := (applyTabular_ok _ _ _ _ happ).1
          rw [this]
          exact hle
        · exact hle.trans (ih idx' (b :: rest) _ _ ph h')
      | error e =>
        rw [happ] at h
        exact hle.trans (ih idx' (b :: rest) _ _ ph h)

theorem procUnits_pairwise_le (name : String) :
    ∀ us idx rem pos num,
      List.Pairwise (fun p q : PhraseRec => p.parentIdx ≤ q.parentIdx)
        (procUnits name us idx rem pos num) := by
  intro us
  induction us with
  | nil => intro idx rem pos num; simp only [procUnits]; exact List.Pairwise.nil
  | cons u us ih =>
    intro idx rem pos num
    rw [procUnits]
    rcases hadv : advanceB idx rem u with ⟨idx', rem'⟩
    cases rem' with
    | nil =>
      dsimp only
      exact ih idx' [] _ _
    | cons b rest =>
      dsimp only
      cases happ : applyTabular
          ⟨mkPhraseStableId name num, idx', 0, b.2, none, none, none, none,
           none, none⟩ b.2 (if idx < idx' then 0 else pos) with
      | ok ph' =>
        dsimp only
        refine List.Pairwise.cons ?_ (ih idx' (b :: rest) _ _)
        intro q hq
        have h1 := (applyTabular_ok _ _ _ _ happ).1
        rw [h1]
        exact procUnits_parentIdx_ge name us idx' (b :: rest) _ _ q hq
      | error e =>
        dsimp only
        exact ih idx' (b :: rest) _ _

/-- C6: during offset reconciliation the block pointer never moves
backward — in the emitted phrase sequence, every later phrase carries a
block index greater than or equal to every earlier phrase's. -/
theorem c6_block_pointer_monotone (name : String)
    (blocks : List (Nat × Parent)) (units : List Nat) :
    List.Pairwise (fun p q : PhraseRec => p.parentIdx ≤ q.parentIdx)
      (assemble name blocks units) :=
  procUnits_pairwise_le name units 0 (cumPairs 0 blocks) 0 0

theorem procUnits_filter_empty (name : String) (us : List Nat)
    (idx : Nat) (rem : List (Nat × Parent)) (pos num b : Nat)
    (hb : b < idx) :
    (procUnits name us idx rem pos num).filter
      (fun p => p.parentIdx == b) = [] := by
  rw [List.filter_eq_nil_iff]
  intro ph hph
  have := procUnits_parentIdx_ge name us idx rem pos num ph hph
  simp only [beq_iff_eq]
  omega

theorem range_map_succ_shift (s k : Nat) :
    (List.range (k + 1)).map (fun i => s + i) =
      s :: (List.range k).map (fun i => s + 1 + i) := by
  rw [List.range_succ_eq_map]
  simp only [List.map_cons, List.map_map, Nat.add_zero]
  congr 1
  exact List.map_congr_left
    (fun a _ => by simp only [Function.comp_apply]; omega)

theorem procUnits_positions (name : String) :
    ∀ us idx rem pos num b,
      ((procUnits name us idx rem pos num).filter
          (fun p => p.parentIdx == b)).map (·.position) =
        (List.range (((procUnits name us idx rem pos num).filter
            (fun p => p.parentIdx == b)).length)).map
          (fun i => (if b = idx then pos else 0) + i) := by
  intro us
  induction us with
  | nil => intro idx rem pos num b; simp [procUnits]
  | cons u us ih =>
    intro idx rem pos num b
    rw [procUnits]
    rcases hadv : advanceB idx rem u with ⟨idx', rem'⟩
    have hle : idx ≤ idx' := by
      have := advanceB_ge u rem idx
      rw [hadv] at this
      exact this
    cases rem' with
    | nil =>
      dsimp only
      by_cases hidx : idx < idx'
      · rw [if_pos hidx]
        by_cases hb : b = idx
        · subst hb
          rw [procUnits_filter_empty name us idx' [] 0 num b hidx]
          simp
        · rw [if_neg hb]
          have h1 := ih idx' [] 0 num b
          simpa using h1
      · rw [if_neg hidx]
        have heq : idx' = idx := by omega
        subst heq
        exact ih idx' [] pos num b
    | cons b0 rest =>
      dsimp only
      cases happ : applyTabular
          ⟨mkPhraseStableId name num, idx', 0, b0.2, none, none, none, none,
           none, none⟩ b0.2 (if idx < idx' then 0 else pos) with
      | ok ph' =>
        dsimp only
        obtain ⟨hpidx, _, hppos⟩ := applyTabular_ok _ _ _ _ happ
        by_cases hb : b = idx'
        · subst hb
          rw [List.filter_cons_of_pos (by simp [hpidx])]
          rw [List.map_cons, List.length_cons, range_map_succ_shift]
          have hS : ph'.position = (if b = idx then pos else 0) := by
            rw [hppos]
            by_cases hidx : idx < b
            · rw [if_pos hidx, if_neg (by omega)]
            · have heq : b = idx := by omega
              rw [if_neg hidx, if_pos heq]
          rw [hS]
          congr 1
          rw [ih b (b0 :: rest) ((if idx < b then 0 else pos) + 1)
            (num + 1) b]
          congr 1
          funext i
          simp only [if_pos rfl]
          split_ifs <;> omega
        · rw [List.filter_cons_of_neg (by simp only [hpidx, beq_iff_eq]; omega)]
          by_cases hbidx : b = idx
          · subst hbidx
            have hidx : b < idx' := by omega
            rw [procUnits_filter_empty name us idx' (b0 :: rest) _ _ b hidx]
            simp
          · rw [if_neg hbidx]
            have h1 := ih idx' (b0 :: rest)
              ((if idx < idx' then 0 else pos) + 1) (num + 1) b
            simpa [hb] using h1
      | error e =>
        dsimp only
        by_cases hidx : idx < idx'
        · rw [if_pos hidx]
          by_cases hb : b = idx
          · subst hb
            rw [procUnits_filter_empty name us idx' (b0 :: rest) 0 num b hidx]
            simp
          · rw [if_neg hb]
            have h1 := ih idx' (b0 :: rest) 0 num b
            simpa using h1
        · rw [if_neg hidx]
          have heq : idx' = idx := by omega
          subst heq
          exact ih idx' (b0 :: rest) pos num b

/-- C4 counterexample: a document with two blocks both owned by the
Document parent, each yielding one annotated unit (block ends 5 and 10,
unit end offsets 4 and 9): `position` is reset to 0 whenever the block
pointer advances, so BOTH phrases attached to the Document parent get
position 0 — the positions within that parent are neither pairwise
distinct nor `{0, 1}`. -/
theorem c4_counterexample :
    (assemble "d" [(5, Parent.doc), (5, Parent.doc)] [4, 9]).map
        (fun p => (p.parent, p.position)) =
      [(Parent.doc, 0), (Parent.doc, 0)] := by
  decide

/-- C4 (amended): the `position` values are contiguous 0-based per BLOCK,
not per parent: for every block index `b`, the positions of the phrases
reconciled to block `b` are exactly `0, 1, …, k-1` in order.  (Positions
are per-parent only when each parent contributes exactly one block.) -/
theorem c4_positions_contiguous_per_block (name : String)
    (blocks : List (Nat × Parent)) (units : List Nat) :
    ∀ b : Nat,
      ((assemble name blocks units).filter
          (fun p => p.parentIdx == b)).map (·.position) =
        List.range (((assemble name blocks units).filter
            (fun p => p.parentIdx == b)).length) := by
  intro b
  have h := procUnits_positions name units 0 (cumPairs 0 blocks) 0 0 b
  simpa using h

/-- C8 (witnessing the divergence): `apply_tabular` itself fails loudly —
for a tabular parent that is none of Document/Table/Cell it returns the
`NotImplementedError` — but the enclosing loop's bare
`except: import pdb; pdb.set_trace()` absorbs the exception and CONTINUES
with the next annotated unit: with a first block whose parent is
unrecognized, the first unit yields no phrase yet the second unit is still
assembled (stable id `d::phrase:0:0`, block index 1), so the document's
parse is not aborted. -/
theorem c8_unrecognized_parent_not_aborted :
    (∀ (p : PhraseRec) (pos : Nat),
      applyTabular p Parent.none pos =
        Except.error "Phrase parent must be Document, Table, or Cell") ∧
    (assemble "d" [(5, Parent.none), (5, Parent.doc)] [4, 9]).map
        (fun p => (p.stableId, p.parentIdx)) = [("d::phrase:0:0", 1)] := by
  constructor
  · intro p pos; rfl
  · decide

/-! ## Injectivity of the phrase identifier scheme -/

theorem digitChar_ne_colon : ∀ d : Nat, (digitChar d != ':') = true
  | 0 => by decide
  | 1 => by decide
  | 2 => by decide
  | 3 => by decide
  | 4 => by decide
  | 5 => by decide
  | 6 => by decide
  | 7 => by decide
  | 8 => by decide
  | _ + 9 => rfl

theorem digitChar_inj :
    ∀ a < 10, ∀ b < 10, digitChar a = digitChar b → a = b := by decide

theorem natReprAux_ne_nil (fuel n : Nat) (h : 0 < fuel) :
    natReprAux fuel n ≠ [] := by
  cases fuel with
  | zero => omega
  | succ k =>
    rw [natReprAux]
    by_cases h10 : n < 10
    · rw [if_pos h10]; simp
    · rw [if_neg h10]; simp

theorem natReprAux_no_colon :
    ∀ fuel n c, c ∈ natReprAux fuel n → (c != ':') = true := by
  intro fuel
  induction fuel with
  | zero => intro n c h; simp [natReprAux] at h
  | succ k ih =>
    intro n c h
    rw [natReprAux] at h
    by_cases h10 : n < 10
    · rw [if_pos h10] at h
      rw [List.mem_singleton] at h
      subst h
      exact digitChar_ne_colon n
    · rw [if_neg h10] at h
      rcases List.mem_append.mp h with h' | h'
      · exact ih _ _ h'
      · rw [List.mem_singleton] at h'
        subst h'
        exact digitChar_ne_colon (n % 10)

theorem natReprAux_inj :
    ∀ f1 f2 m n, 0 < f1 → 0 < f2 → m < 10 ^ f1 → n < 10 ^ f2 →
      natReprAux f1 m = natReprAux f2 n → m = n := by
  intro f1
  induction f1 with
  | zero => intro f2 m n h0; omega
  | succ k ih =>
    intro f2 m n _ hf2 hm hn heq
    cases f2 with
    | zero => omega
    | succ l =>
      rw [natReprAux, natReprAux] at heq
      by_cases h1 : m < 10 <;> by_cases h2 : n < 10
      · rw [if_pos h1, if_pos h2] at heq
        have hd : digitChar m = digitChar n := by
          simpa using heq
        exact digitChar_inj m h1 n h2 hd
      · exfalso
        rw [if_pos h1, if_neg h2] at heq
        have hl : 0 < l := by
          by_contra hl0
          have hl0' : l = 0 := by omega
          subst hl0'
          rw [pow_one] at hn
          exact h2 hn
        have hne := natReprAux_ne_nil l (n / 10) hl
        have hlen := congrArg List.length heq
        simp only [List.length_singleton, List.length_append,
          List.length_cons, List.length_nil] at hlen
        exact hne (List.eq_nil_of_length_eq_zero (by omega))
      · exfalso
        rw [if_neg h1, if_pos h2] at heq
        have hk : 0 < k := by
          by_contra hk0
          have hk0' : k = 0 := by omega
          subst hk0'
          rw [pow_one] at hm
          exact h1 hm
        have hne := natReprAux_ne_nil k (m / 10) hk
        have hlen := congrArg List.length heq
        simp only [List.length_singleton, List.length_append,
          List.length_cons, List.length_nil] at hlen
        exact hne (List.eq_nil_of_length_eq_zero (by omega))
      · rw [if_neg h1, if_neg h2] at heq
        have hk : 0 < k := by
          by_contra hk0
          have hk0' : k = 0 := by omega
          subst hk0'
          rw [pow_one] at hm
          exact h1 hm
        have hl : 0 < l := by
          by_contra hl0
          have hl0' : l = 0 := by omega
          subst hl0'
          rw [pow_one] at hn
          exact h2 hn
        have hrev := congrArg List.reverse heq
        simp only [List.reverse_append, List.reverse_cons, List.reverse_nil,
          List.nil_append, List.singleton_append] at hrev
        injection hrev with hd hxs
        have hd' : m % 10 = n % 10 :=
          digitChar_inj (m % 10) (Nat.mod_lt m (by omega)) (n % 10)
            (Nat.mod_lt n (by omega)) hd
        have hxs' : natReprAux k (m / 10) = natReprAux l (n / 10) := by
          have := congrArg List.reverse hxs
          simpa using this
        have hmd : m / 10 < 10 ^ k := by
          rw [Nat.div_lt_iff_lt_mul (by norm_num)]
          calc m < 10 ^ (k + 1) := hm
          _ = 10 ^ k * 10 := by rw [pow_succ]
        have hnd : n / 10 < 10 ^ l := by
          rw [Nat.div_lt_iff_lt_mul (by norm_num)]
          calc n < 10 ^ (l + 1) := hn
          _ = 10 ^ l * 10 := by rw [pow_succ]
        have := ih l (m / 10) (n / 10) hk hl hmd hnd hxs'
        omega

theorem lt_ten_pow_succ (m : Nat) : m < 10 ^ (m + 1) :=
  calc m < 2 ^ m := Nat.lt_two_pow m
  _ ≤ 10 ^ m := Nat.pow_le_pow_left (by norm_num) m
  _ ≤ 10 ^ (m + 1) := Nat.pow_le_pow_right (by norm_num) (Nat.le_succ m)

theorem data_append (s t : String) : (s ++ t).data = s.data ++ t.data := by
  cases s; cases t; rfl

/-- The characters after the last `':'` of a string. -/
def afterLastColon (s : String) : List Char :=
  (s.data.reverse.takeWhile (fun c => c != ':')).reverse

theorem takeWhile_append_stop (ys : List Char) :
    ∀ xs : List Char, (∀ c ∈ xs, (c != ':') = true) →
      (xs ++ ':' :: ys).takeWhile (fun c => c != ':') = xs := by
  intro xs
  induction xs with
  | nil => intro _; simp [List.takeWhile_cons]
  | cons x rest ih =>
    intro h
    rw [List.cons_append, List.takeWhile_cons,
      h x (List.mem_cons_self _ _)]
    rw [ih (fun c hc => h c (List.mem_cons_of_mem _ hc))]
    simp

theorem afterLastColon_mkId (name : String) (n : Nat) :
    afterLastColon (mkPhraseStableId name n) = natReprAux (n + 1) n := by
  unfold afterLastColon mkPhraseStableId
  rw [data_append, data_append, data_append, data_append]
  have hcolon : (":" : String).data = [':'] := rfl
  have hr : (natRepr n).data = natReprAux (n + 1) n := rfl
  rw [hcolon, hr]
  simp only [List.reverse_append, List.reverse_cons, List.singleton_append,
    List.append_assoc, List.cons_append, List.nil_append]
  rw [takeWhile_append_stop _ _
    (fun c hc => natReprAux_no_colon (n + 1) n c (List.mem_reverse.mp hc))]
  exact List.reverse_reverse _

theorem mkPhraseStableId_inj (name : String) (m n : Nat)
    (h : mkPhraseStableId name m = mkPhraseStableId name n) : m = n := by
  have h2 := congrArg afterLastColon h
  rw [afterLastColon_mkId, afterLastColon_mkId] at h2
  exact natReprAux_inj (m + 1) (n + 1) m n (Nat.succ_pos m) (Nat.succ_pos n)
    (lt_ten_pow_succ m) (lt_ten_pow_succ n) h2

theorem range_map_shift {α : Type} (f : Nat → α) (s k : Nat) :
    (List.range (k + 1)).map (fun i => f (s + i)) =
      f s :: (List.range k).map (fun i => f (s + 1 + i)) := by
  rw [List.range_succ_eq_map]
  simp only [List.map_cons, List.map_map, Nat.add_zero]
  congr 1
  exact List.map_congr_left
    (fun a _ => by simp only [Function.comp_apply]; exact congrArg f (by omega))

theorem procUnits_ids (name : String) :
    ∀ us idx rem pos num,
      (procUnits name us idx rem pos num).map (·.stableId) =
        (List.range (procUnits name us idx rem pos num).length).map
          (fun i => mkPhraseStableId name (num + i)) := by
  intro us
  induction us with
  | nil => intro idx rem pos num; simp [procUnits]
  | cons u us ih =>
    intro idx rem pos num
    rw [procUnits]
    rcases hadv : advanceB idx rem u with ⟨idx', rem'⟩
    cases rem' with
    | nil =>
      dsimp only
      exact ih idx' [] _ num
    | cons b0 rest =>
      dsimp only
      cases happ : applyTabular
          ⟨mkPhraseStableId name num, idx', 0, b0.2, none, none, none, none,
           none, none⟩ b0.2 (if idx < idx' then 0 else pos) with
      | ok ph' =>
        dsimp only
        obtain ⟨_, hsid, _⟩ := applyTabular_ok _ _ _ _ happ
        rw [List.map_cons, List.length_cons,
          range_map_shift (mkPhraseStableId name) num]
        rw [hsid]
        exact congrArg (_ :: ·) (ih idx' (b0 :: rest) _ (num + 1))
      | error e =>
        dsimp only
        exact ih idx' (b0 :: rest) _ num

/-- C7: every emitted phrase's stable identifier is
`"<name>::phrase:<n>:<n>"` where `n` is the phrase's 0-based sequential
position among the document's emitted phrases, and these identifiers are
pairwise distinct.  (Determinism is immediate in the embedding: `assemble`
is a pure function of the document name, blocks, and annotated units.) -/
theorem c7_phrase_stable_ids (name : String) (blocks : List (Nat × Parent))
    (units : List Nat) :
    (assemble name blocks units).map (·.stableId) =
      (List.range (assemble name blocks units).length).map
        (mkPhraseStableId name) ∧
    List.Pairwise (fun a b : String => a ≠ b)
      ((assemble name blocks units).map (·.stableId)) := by
  have h1 := procUnits_ids name units 0 (cumPairs 0 blocks) 0 0
  have h1' : (assemble name blocks units).map (·.stableId) =
      (List.range (assemble name blocks units).length).map
        (mkPhraseStableId name) := by
    simpa using h1
  refine ⟨h1', ?_⟩
  rw [h1', List.pairwise_map]
  refine List.pairwise_lt_range _ |>.imp ?_
  intro a b hab heq
  exact absurd (mkPhraseStableId_inj name a b heq) (Nat.ne_of_lt hab)

/-! ## The snorkel `CoreNLPHandler.parse` per-token loop
(src/snorkel/parser.py)

For each `(tok, deps)` pair of `zip(block['tokens'],
block['basic-dependencies'])` the loop appends to the `parts` arrays:
`words` twice (once PTB-mapped, once NUL-cleaned), `lemmas` once
(PTB-mapped), the key `'lemma'` once (NUL-cleaned), and `pos_tags`,
`ner_tags`, `char_offsets` once each. -/

/-- One CoreNLP token. -/
structure Tok where
  word : String
  lemma_ : String
  pos : String
  ner : String
  charOffsetBegin : Nat
  deriving DecidableEq, Repr

/-- One entry of `basic-dependencies`. -/
structure Dep where
  governor : Nat
  dep : String
  dependent : Nat
  deriving DecidableEq, Repr

/-- `PTB.get(w, w)` — map PennTreeBank bracket symbols back to characters. -/
def ptbGet (w : String) : String :=
  if w = "-RRB-" then ")"
  else if w = "-LRB-" then "("
  else if w = "-RCB-" then "\x7d"
  else if w = "-LCB-" then "\x7b"
  else if w = "-RSB-" then "]"
  else if w = "-LSB-" then "["
  else w

/-- `s.replace(u"\x00", " ")`. -/
def nulClean (s : String) : String :=
  ⟨s.data.map (fun c => if c = '\x00' then ' ' else c)⟩

/-- The per-sentence token arrays of the snorkel `parts` record that C10
talks about (including the stray `'lemma'` key written by the
NUL-cleaning lines). -/
structure SentParts where
  words : List String
  lemmas : List String
  lemma_ : List String
  pos_tags : List String
  ner_tags : List String
  char_offsets : List Nat
  deriving DecidableEq, Repr

/-- The token loop of `CoreNLPHandler.parse`, exactly per the source: two
appends to `words` per token (PTB-mapped and NUL-cleaned), the NUL-cleaned
lemma appended under the key `'lemma'` rather than `'lemmas'`. -/
def tokenLoop : List (Tok × Dep) → SentParts → SentParts
  | [], p => p
  | (tok, _) :: rest, p =>
    tokenLoop rest
      { p with
        words := p.words ++ [ptbGet tok.word, nulClean tok.word],
        lemmas := p.lemmas ++ [ptbGet tok.lemma_],
        lemma_ := p.lemma_ ++ [nulClean tok.lemma_],
        pos_tags := p.pos_tags ++ [tok.pos],
        ner_tags := p.ner_tags ++ [tok.ner],
        char_offsets := p.char_offsets ++ [tok.charOffsetBegin] }

/-- The arrays accumulated for one sentence block, starting from the fresh
`defaultdict(list)`. -/
def snorkelTokenArrays (toks : List Tok) (deps : List Dep) : SentParts :=
  tokenLoop (toks.zip deps) ⟨[], [], [], [], [], []⟩

theorem tokenLoop_lengths :
    ∀ l p, ((tokenLoop l p).words.length = p.words.length + 2 * l.length) ∧
      ((tokenLoop l p).lemmas.length = p.lemmas.length + l.length) ∧
      ((tokenLoop l p).pos_tags.length = p.pos_tags.length + l.length) ∧
      ((tokenLoop l p).ner_tags.length = p.ner_tags.length + l.length) ∧
      ((tokenLoop l p).char_offsets.length =
        p.char_offsets.length + l.length) := by
  intro l
  induction l with
  | nil => intro p; simp [tokenLoop]
  | cons td rest ih =>
    intro p
    obtain ⟨td1, td2⟩ := td
    obtain ⟨h1, h2, h3, h4, h5⟩ := ih
      { p with
        words := p.words ++ [ptbGet td1.word, nulClean td1.word],
        lemmas := p.lemmas ++ [ptbGet td1.lemma_],
        lemma_ := p.lemma_ ++ [nulClean td1.lemma_],
        pos_tags := p.pos_tags ++ [td1.pos],
        ner_tags := p.ner_tags ++ [td1.ner],
        char_offsets := p.char_offsets ++ [td1.charOffsetBegin] }
    rw [tokenLoop]
    refine ⟨?_, ?_, ?_, ?_, ?_⟩ <;>
      simp only [h1, h2, h3, h4, h5, List.length_append, List.length_cons,
        List.length_nil] <;> omega

/-- C10 (witnessing the defect): in the snorkel `CoreNLPHandler.parse`
loop, `words` receives TWO entries per annotator token (the PTB-mapped
copy and the NUL-cleaned copy) while `pos_tags`, `ner_tags` and
`char_offsets` receive one, and the cleaned lemma goes to the stray key
`'lemma'` instead of `'lemmas'` — so the per-token arrays are NOT aligned
whenever the sentence has at least one token.  Concretely, one token
`"Hi"` yields `words = ["Hi", "Hi"]` but `pos_tags = ["UH"]`. -/
theorem c10_token_arrays_misaligned :
    (∀ (toks : List Tok) (deps : List Dep),
      (snorkelTokenArrays toks deps).words.length =
          2 * (toks.zip deps).length ∧
        (snorkelTokenArrays toks deps).lemmas.length =
          (toks.zip deps).length ∧
        (snorkelTokenArrays toks deps).pos_tags.length =
          (toks.zip deps).length ∧
        (snorkelTokenArrays toks deps).ner_tags.length =
          (toks.zip deps).length ∧
        (snorkelTokenArrays toks deps).char_offsets.length =
          (toks.zip deps).length) ∧
    (snorkelTokenArrays [⟨"Hi", "hi", "UH", "O", 0⟩]
        [⟨0, "root", 1⟩]).words = ["Hi", "Hi"] ∧
    (snorkelTokenArrays [⟨"Hi", "hi", "UH", "O", 0⟩]
        [⟨0, "root", 1⟩]).pos_tags = ["UH"] ∧
    (snorkelTokenArrays [⟨"Hi", "hi", "UH", "O", 0⟩]
        [⟨0, "root", 1⟩]).words.length ≠
      (snorkelTokenArrays [⟨"Hi", "hi", "UH", "O", 0⟩]
        [⟨0, "root", 1⟩]).pos_tags.length := by
  refine ⟨?_, by decide, by decide, by decide⟩
  intro toks deps
  have h := tokenLoop_lengths (toks.zip deps) ⟨[], [], [], [], [], []⟩
  simpa [snorkelTokenArrays] using h

/-! ## The batch splitter of `parse_structure`

`self.delim = "<NB>"`; the loop repeatedly takes
`batch_end = parsed + contents[parsed : parsed + batch_size].rfind(delim)
+ len(delim)` and sends `contents[parsed:batch_end]` to the annotator.
Strings are modelled as `List Char` here; the buffer is the concatenation
of every block's text followed by the delimiter. -/

/-- The block delimiter `"<NB>"`. -/
def delimL : List Char := ['<', 'N', 'B', '>']

/-- The delimiter occurs in `s` at position `i`. -/
def occursAt (s : List Char) (i : Nat) : Prop :=
  (s.drop i).take 4 = delimL

instance (s : List Char) (i : Nat) : Decidable (occursAt s i) := by
  unfold occursAt; infer_instance

/-- `s` contains the delimiter somewhere (a block text containing `"<NB>"`
would make delimiter-aligned cuts unsafe). -/
def hasDelim (s : List Char) : Prop := ∃ i, occursAt s i

/-- The global buffer: every block's text followed by the delimiter
(`self.contents += text; self.contents += self.delim`). -/
def joinBlocks (blocks : List (List Char)) : List Char :=
  (blocks.map (fun b => b ++ delimL)).flatten

/-- `np.cumsum(block_lengths)` with `block_lengths.append(len(text) +
len(self.delim))`: the end offset of each block's delimited text. -/
def blockEndsFrom (acc : Nat) : List (List Char) → List Nat
  | [] => []
  | b :: rest =>
    (acc + (b.length + 4)) :: blockEndsFrom (acc + (b.length + 4)) rest

/-- Python `str.rfind` scanning downward from `hi`: the highest `i ≤ hi`
at which the delimiter occurs. -/
def rfindAux (s : List Char) : Nat → Option Nat
  | 0 => if (s.drop 0).take 4 == delimL then some 0 else none
  | i + 1 =>
    if (s.drop (i + 1)).take 4 == delimL then some (i + 1) else rfindAux s i

/-- `w.rfind("<NB>")`: highest match position, or `none` (Python `-1`). -/
def rfind (s : List Char) : Option Nat :=
  if s.length < 4 then none else rfindAux s (s.length - 4)

/-- One annotation batch per unit of fuel:
`batch_end = parsed + window.rfind(delim) + len(delim)`, where a missing
delimiter gives Python `rfind = -1`, hence `batch_end = parsed + 3`; the
loop runs `while parsed < content_length` setting `parsed = batch_end`.
Each iteration advances `parsed` by at least 3, so `contents.length + 1`
units of fuel are ample. -/
def batchLoopF (contents : List Char) (B : Nat) : Nat → Nat → List Nat
  | 0, _ => []
  | fuel + 1, parsed =>
    if parsed < contents.length then
      let e := match rfind ((contents.drop parsed).take B) with
        | some k => parsed + k + 4
        | none => parsed + 3
      e :: batchLoopF contents B fuel e
    else []

/-- The list of batch end offsets produced for a buffer. -/
def batchEnds (contents : List Char) (B : Nat) : List Nat :=
  batchLoopF contents B (contents.length + 1) 0

theorem occursAt_le (s : List Char) (i : Nat) (h : occursAt s i) :
    i + 4 ≤ s.length := by
  unfold occursAt at h
  have hlen := congrArg List.length h
  simp only [List.length_take, List.length_drop] at hlen
  have : delimL.length = 4 := rfl
  omega

theorem occursAt_mem (s : List Char) (i : Nat) (h : occursAt s i) :
    ∀ c ∈ delimL, c ∈ s := by
  intro c hc
  unfold occursAt at h
  rw [← h] at hc
  exact List.drop_subset _ _ (List.take_subset _ _ hc)

theorem rfindAux_sound (s : List Char) :
    ∀ hi k, rfindAux s hi = some k → occursAt s k ∧ k ≤ hi := by
  intro hi
  induction hi with
  | zero =>
    intro k h
    rw [rfindAux] at h
    by_cases hm : (s.drop 0).take 4 == delimL
    · rw [if_pos hm] at h
      cases h
      exact ⟨by unfold occursAt; exact eq_of_beq hm, Nat.le_refl 0⟩
    · rw [if_neg hm] at h
      cases h
  | succ n ih =>
    intro k h
    rw [rfindAux] at h
    by_cases hm : (s.drop (n + 1)).take 4 == delimL
    · rw [if_pos hm] at h
      cases h
      exact ⟨by unfold occursAt; exact eq_of_beq hm, Nat.le_refl _⟩
    · rw [if_neg hm] at h
      obtain ⟨h1, h2⟩ := ih k h
      exact ⟨h1, h2.trans (Nat.le_succ n)⟩

theorem rfind_sound (s : List Char) (k : Nat) (h : rfind s = some k) :
    occursAt s k := by
  unfold rfind at h
  by_cases hl : s.length < 4
  · rw [if_pos hl] at h; cases h
  · rw [if_neg hl] at h
    exact (rfindAux_sound s _ k h).1

theorem rfindAux_complete (s : List Char) :
    ∀ hi k, k ≤ hi → occursAt s k → (rfindAux s hi).isSome := by
  intro hi
  induction hi with
  | zero =>
    intro k hk ho
    have hk0 : k = 0 := by omega
    subst hk0
    rw [rfindAux]
    rw [if_pos (beq_of_eq ho)]
    rfl
  | succ n ih =>
    intro k hk ho
    rw [rfindAux]
    by_cases hm : (s.drop (n + 1)).take 4 == delimL
    · rw [if_pos hm]; rfl
    · rw [if_neg hm]
      rcases Nat.eq_or_lt_of_le hk with rfl | hk'
      · exact absurd (beq_of_eq ho) hm
      · exact ih k (by omega) ho

theorem rfind_complete (s : List Char) (k : Nat) (h : occursAt s k) :
    (rfind s).isSome := by
  have hle := occursAt_le s k h
  unfold rfind
  rw [if_neg (by omega)]
  exact rfindAux_complete s (s.length - 4) k (by omega) h

theorem rfind_eq_none_of_not_mem (s : List Char) (h : '>' ∉ s) :
    rfind s = none := by
  cases hr : rfind s with
  | none => rfl
  | some k =>
    exact absurd (occursAt_mem s k (rfind_sound s k hr) '>' (by decide)) h

theorem batchLoopF_cons (c : List Char) (B fuel parsed : Nat)
    (h : parsed < c.length) :
    batchLoopF c B (fuel + 1) parsed =
      (match rfind ((c.drop parsed).take B) with
        | some k => parsed + k + 4
        | none => parsed + 3) ::
      batchLoopF c B fuel
        (match rfind ((c.drop parsed).take B) with
          | some k => parsed + k + 4
          | none => parsed + 3) := by
  rw [batchLoopF, if_pos h]

/-- The block of the C2 counterexample: 6997 characters of text, so that
block text + delimiter is 7001 characters — one more than the lingual
batch size 7000. -/
def ceBlock : List Char := List.replicate 6997 'a'

/-- C2 counterexample: with the lingual batch size 7000 and a single
6997-character block, the first window contains no complete delimiter, so
`rfind` returns `-1` and the first batch boundary is `parsed + 3 = 3` —
not the end of any delimiter occurrence, and not a block boundary (the
only block ends at 7001): the block's text IS split across annotator
calls. -/
theorem c2_counterexample :
    (batchEnds (joinBlocks [ceBlock]) 7000).head? = some 3 ∧
    blockEndsFrom 0 [ceBlock] = [7001] ∧
    (3 : Nat) ∉ blockEndsFrom 0 [ceBlock] ∧
    ¬ ∃ i, occursAt (joinBlocks [ceBlock]) i ∧ i + 4 = 3 := by
  have hjb : joinBlocks [ceBlock] = List.replicate 6997 'a' ++ delimL := by
    simp only [joinBlocks, ceBlock, List.map_cons, List.map_nil,
      List.flatten_cons, List.flatten_nil, List.append_nil]
  have hlen : (joinBlocks [ceBlock]).length = 7001 := by
    rw [hjb, List.length_append, List.length_replicate]
    decide
  have hw : ((joinBlocks [ceBlock]).drop 0).take 7000 =
      List.replicate 6997 'a' ++ ['<', 'N', 'B'] := by
    rw [List.drop_zero, hjb, List.take_append_eq_append_take,
      List.take_replicate, List.length_replicate,
      show min 7000 6997 = 6997 by norm_num,
      show (7000 - 6997 : Nat) = 3 by norm_num]
    congr 1
  have hnm : '>' ∉ ((joinBlocks [ceBlock]).drop 0).take 7000 := by
    rw [hw]
    intro h
    rcases List.mem_append.mp h with h' | h'
    · exact absurd (List.eq_of_mem_replicate h') (by decide)
    · exact absurd h' (by decide)
  refine ⟨?_, ?_, ?_, ?_⟩
  · rw [batchEnds, batchLoopF_cons _ _ _ _ (by omega)]
    rw [rfind_eq_none_of_not_mem _ hnm]
    rfl
  · simp only [blockEndsFrom, ceBlock, List.length_replicate]
  · simp only [blockEndsFrom, ceBlock, List.length_replicate]
    decide
  · rintro ⟨i, _, h⟩
    omega

/-! ### Delimiter occurrences in the joined buffer

`"<NB>"` is borderless (no proper prefix equals a suffix), so an
occurrence of the delimiter in `block ++ "<NB>" ++ rest` cannot straddle a
block/delimiter boundary; if no block's text contains the delimiter, the
occurrences in the whole buffer are exactly the block-terminating
delimiters. -/

theorem delim_borderless :
    ∀ k, k < 4 → 0 < k → delimL.take k ≠ delimL.drop (4 - k) := by decide

theorem occursAt_window_sound (s : List Char) (p B k : Nat)
    (h : occursAt ((s.drop p).take B) k) : occursAt s (p + k) := by
  unfold occursAt at h ⊢
  rw [List.drop_take, List.take_take, List.drop_drop] at h
  have hlen := congrArg List.length h
  simp only [List.length_take, List.length_drop] at hlen
  have h4 : delimL.length = 4 := rfl
  rw [h4] at hlen
  have hmin : (4 ⊓ (B - k)) = 4 := by omega
  rw [hmin] at h
  exact h

theorem occursAt_window_complete (s : List Char) (p B j : Nat)
    (h : occursAt s j) (hp : p ≤ j) (hB : j + 4 ≤ p + B) :
    occursAt ((s.drop p).take B) (j - p) := by
  unfold occursAt at h ⊢
  rw [List.drop_take, List.take_take, List.drop_drop]
  rw [show p + (j - p) = j by omega]
  have hmin : (4 ⊓ (B - (j - p))) = 4 := by omega
  rw [hmin]
  exact h

theorem occursAt_append_right (x y : List Char) (i : Nat)
    (hx : x.length ≤ i) :
    occursAt (x ++ y) i ↔ occursAt y (i - x.length) := by
  unfold occursAt
  rw [List.drop_append_eq_append_drop, List.drop_eq_nil_of_le hx,
    List.nil_append]

theorem occursAt_append_left (x y : List Char) (i : Nat)
    (hx : i + 4 ≤ x.length) :
    occursAt (x ++ y) i ↔ occursAt x i := by
  unfold occursAt
  rw [List.drop_append_eq_append_drop, List.take_append_eq_append_take]
  have h0 : 4 - (x.drop i).length = 0 := by
    rw [List.length_drop]
    omega
  rw [h0, List.take_zero, List.append_nil]

theorem border_contra (m : Nat) (h0 : 0 < m) (h4 : m < 4)
    (h : delimL.take (4 - m) = delimL.drop m) : False := by
  have hbf := delim_borderless (4 - m) (by omega) (by omega)
  rw [show 4 - (4 - m) = m by omega] at hbf
  exact hbf h

theorem occursAt_block_step (b rest : List Char) (hb : ¬ hasDelim b)
    (i : Nat) :
    occursAt ((b ++ delimL) ++ rest) i ↔
      (i = b.length ∨
        (b.length + 4 ≤ i ∧ occursAt rest (i - (b.length + 4)))) := by
  have hbd4 : (b ++ delimL).length = b.length + 4 := by
    rw [List.length_append]
    rfl
  constructor
  · intro h
    by_cases h1 : i + 4 ≤ b.length
    · exfalso
      have h2 : occursAt (b ++ delimL) i :=
        (occursAt_append_left _ rest i (by omega)).mp h
      have h3 : occursAt b i :=
        (occursAt_append_left _ delimL i h1).mp h2
      exact hb ⟨i, h3⟩
    · by_cases h2 : i < b.length
      · -- an occurrence straddling the block/delimiter boundary would give
        -- the delimiter a border
        exfalso
        have hbd : occursAt (b ++ delimL) i :=
          (occursAt_append_left _ rest i (by omega)).mp h
        unfold occursAt at hbd
        rw [List.drop_append_eq_append_drop] at hbd
        have hdi : i - b.length = 0 := by omega
        rw [hdi, List.drop_zero, List.take_append_eq_append_take] at hbd
        have hlen1 : (b.drop i).length = b.length - i := List.length_drop i b
        have htk : (b.drop i).take 4 = b.drop i :=
          List.take_of_length_le (by omega)
        rw [htk, hlen1] at hbd
        have hdrop := congrArg (List.drop (b.length - i)) hbd
        rw [List.drop_append_eq_append_drop,
          List.drop_eq_nil_of_le (le_of_eq hlen1),
          List.nil_append] at hdrop
        rw [show b.length - i - (b.drop i).length = 0 by omega,
          List.drop_zero] at hdrop
        -- hdrop : delimL.take (4 - (b.length - i)) = delimL.drop (b.length - i)
        exact border_contra (b.length - i) (by omega) (by omega) hdrop
      · by_cases h3 : i = b.length
        · exact Or.inl h3
        · by_cases h4 : i < b.length + 4
          · -- straddling the delimiter/rest boundary: border again
            exfalso
            unfold occursAt at h
            rw [List.drop_append_eq_append_drop,
              List.drop_append_eq_append_drop] at h
            have hib : b.drop i = [] := List.drop_eq_nil_of_le (by omega)
            rw [hib, List.nil_append] at h
            rw [show i - (b ++ delimL).length = 0 by omega,
              List.drop_zero, List.take_append_eq_append_take] at h
            have hlen2 : (delimL.drop (i - b.length)).length =
                4 - (i - b.length) := by
              rw [List.length_drop]
              rfl
            have htk2 : (delimL.drop (i - b.length)).take 4 =
                delimL.drop (i - b.length) :=
              List.take_of_length_le (by omega)
            rw [htk2, hlen2] at h
            have htake := congrArg (List.take (4 - (i - b.length))) h
            rw [List.take_append_eq_append_take,
              List.take_of_length_le (le_of_eq hlen2)] at htake
            rw [show 4 - (i - b.length) - (delimL.drop (i - b.length)).length
                = 0 by omega,
              List.take_zero, List.append_nil] at htake
            -- htake : delimL.drop (i - b.length) = delimL.take (4 - (i - b.length))
            exact border_contra (i - b.length) (by omega) (by omega) htake.symm
          · right
            refine ⟨by omega, ?_⟩
            have h5 := (occursAt_append_right (b ++ delimL) rest i
              (by omega)).mp h
            rw [hbd4] at h5
            exact h5
  · intro h
    rcases h with rfl | ⟨h1, h2⟩
    · unfold occursAt
      rw [List.append_assoc, List.drop_append_eq_append_drop,
        List.drop_eq_nil_of_le (Nat.le_refl b.length), List.nil_append,
        Nat.sub_self, List.drop_zero, List.take_append_eq_append_take]
      rw [show (4 : Nat) - delimL.length = 0 from rfl, List.take_zero,
        List.append_nil]
      rfl
    · rw [occursAt_append_right (b ++ delimL) rest i (by omega), hbd4]
      exact h2

theorem blockEndsFrom_shift :
    ∀ (l : List (List Char)) (a : Nat),
      blockEndsFrom a l = (blockEndsFrom 0 l).map (a + ·) := by
  intro l
  induction l with
  | nil => intro a; rfl
  | cons b rest ih =>
    intro a
    rw [blockEndsFrom, blockEndsFrom, List.map_cons]
    congr 1
    · omega
    · rw [ih (a + (b.length + 4)), ih (0 + (b.length + 4)), List.map_map]
      congr 1
      funext e
      simp only [Function.comp_apply]
      omega

theorem blockEndsFrom_ge :
    ∀ (l : List (List Char)) (a e : Nat),
      e ∈ blockEndsFrom a l → a + 4 ≤ e := by
  intro l
  induction l with
  | nil => intro a e h; cases h
  | cons b rest ih =>
    intro a e h
    rw [blockEndsFrom] at h
    rcases List.mem_cons.mp h with rfl | h'
    · omega
    · have := ih _ _ h'
      omega

/-- If no block's text contains the delimiter, the delimiter occurs in the
joined buffer exactly at the block-terminating positions. -/
theorem occursAt_joinBlocks :
    ∀ blocks : List (List Char), (∀ b ∈ blocks, ¬ hasDelim b) →
      ∀ i, occursAt (joinBlocks blocks) i ↔
        (i + 4) ∈ blockEndsFrom 0 blocks := by
  intro blocks
  induction blocks with
  | nil =>
    intro _ i
    constructor
    · intro h
      exfalso
      have := occursAt_le _ _ h
      simp [joinBlocks] at this
    · intro h; cases h
  | cons b rest ih =>
    intro hnd i
    have hjcons : joinBlocks (b :: rest) =
        (b ++ delimL) ++ joinBlocks rest := rfl
    rw [hjcons,
      occursAt_block_step b (joinBlocks rest) (hnd b (List.mem_cons_self _ _)),
      blockEndsFrom, blockEndsFrom_shift]
    constructor
    · rintro (rfl | ⟨h1, h2⟩)
      · exact List.mem_cons.mpr (Or.inl (by omega))
      · refine List.mem_cons.mpr (Or.inr ?_)
        have h3 := (ih (fun x hx => hnd x (List.mem_cons_of_mem _ hx))
          (i - (b.length + 4))).mp h2
        rw [List.mem_map]
        exact ⟨i - (b.length + 4) + 4, h3, by omega⟩
    · intro h
      rcases List.mem_cons.mp h with h' | h'
      · exact Or.inl (by omega)
      · refine Or.inr ?_
        rw [List.mem_map] at h'
        obtain ⟨e, he, hei⟩ := h'
        have he4 := blockEndsFrom_ge rest 0 e he
        refine ⟨by omega, ?_⟩
        rw [ih (fun x hx => hnd x (List.mem_cons_of_mem _ hx))
          (i - (b.length + 4))]
        rw [show i - (b.length + 4) + 4 = e by omega]
        exact he

/-- From any block boundary (or the start), the window of size `B`
contains a whole block: there is a next block end at most `B` away. -/
theorem next_end_exists (B : Nat) :
    ∀ (blocks : List (List Char)) (acc parsed : Nat),
      (∀ b ∈ blocks, b.length + 4 ≤ B) →
      (parsed = acc ∨ parsed ∈ blockEndsFrom acc blocks) →
      parsed < acc + (joinBlocks blocks).length →
      ∃ e ∈ blockEndsFrom acc blocks, parsed + 4 ≤ e ∧ e ≤ parsed + B := by
  intro blocks
  induction blocks with
  | nil =>
    intro acc parsed _ hgood hlt
    exfalso
    rcases hgood with rfl | h
    · simp [joinBlocks] at hlt
    · cases h
  | cons b rest ih =>
    intro acc parsed hB hgood hlt
    have hjlen : (joinBlocks (b :: rest)).length =
        (b.length + 4) + (joinBlocks rest).length := by
      show ((b ++ delimL) ++ joinBlocks rest).length = _
      rw [List.length_append, List.length_append]
      have h4 : delimL.length = 4 := rfl
      omega
    rw [hjlen] at hlt
    rcases hgood with rfl | hmem
    · refine ⟨parsed + (b.length + 4), ?_, by omega, ?_⟩
      · rw [blockEndsFrom]
        exact List.mem_cons_self _ _
      · have := hB b (List.mem_cons_self _ _)
        omega
    · rw [blockEndsFrom] at hmem
      rcases List.mem_cons.mp hmem with rfl | hmem'
      · obtain ⟨e, he, h1, h2⟩ := ih (acc + (b.length + 4))
          (acc + (b.length + 4))
          (fun x hx => hB x (List.mem_cons_of_mem _ hx)) (Or.inl rfl)
          (by omega)
        refine ⟨e, ?_, h1, h2⟩
        rw [blockEndsFrom]
        exact List.mem_cons_of_mem _ he
      · obtain ⟨e, he, h1, h2⟩ := ih (acc + (b.length + 4)) parsed
          (fun x hx => hB x (List.mem_cons_of_mem _ hx)) (Or.inr hmem')
          (by omega)
        refine ⟨e, ?_, h1, h2⟩
        rw [blockEndsFrom]
        exact List.mem_cons_of_mem _ he

/-- C2 (amended): provided every block (text + delimiter) fits within one
batch (`len(text) + len(delim) ≤ batch_size`) and no block's text contains
the delimiter `"<NB>"`, every batch boundary produced by the splitting
loop is the end of a delimiter occurrence in the buffer AND is one of the
block end offsets — so no block's text is ever split across two annotator
calls.  Without the first hypothesis this fails (see the counterexample):
a window with no delimiter makes `rfind` return `-1` and the boundary
lands mid-block. -/
theorem c2_batch_boundaries_block_aligned (blocks : List (List Char))
    (B : Nat) (hB : ∀ b ∈ blocks, b.length + 4 ≤ B)
    (hD : ∀ b ∈ blocks, ¬ hasDelim b) :
    ∀ e ∈ batchEnds (joinBlocks blocks) B,
      e ∈ blockEndsFrom 0 blocks ∧ 4 ≤ e ∧
        occursAt (joinBlocks blocks) (e - 4) := by
  suffices h : ∀ fuel parsed,
      (parsed = 0 ∨ parsed ∈ blockEndsFrom 0 blocks) →
      ∀ e ∈ batchLoopF (joinBlocks blocks) B fuel parsed,
        e ∈ blockEndsFrom 0 blocks ∧ 4 ≤ e ∧
          occursAt (joinBlocks blocks) (e - 4) by
    exact fun e he => h _ 0 (Or.inl rfl) e he
  intro fuel
  induction fuel with
  | zero =>
    intro parsed _ e he
    simp [batchLoopF] at he
  | succ n ih =>
    intro parsed hgood e he
    by_cases hlt : parsed < (joinBlocks blocks).length
    · obtain ⟨e', he', h1, h2⟩ := next_end_exists B blocks 0 parsed hB
        (by simpa using hgood) (by omega)
      have hge := blockEndsFrom_ge blocks 0 e' he'
      have hocc : occursAt (joinBlocks blocks) (e' - 4) := by
        rw [occursAt_joinBlocks blocks hD]
        rw [show e' - 4 + 4 = e' by omega]
        exact he'
      have hwocc : occursAt (((joinBlocks blocks).drop parsed).take B)
          (e' - 4 - parsed) :=
        occursAt_window_complete _ parsed B (e' - 4) hocc (by omega)
          (by omega)
      have hsome := rfind_complete _ _ hwocc
      cases hr : rfind (((joinBlocks blocks).drop parsed).take B) with
      | none => rw [hr] at hsome; simp at hsome
      | some k =>
        have herw : batchLoopF (joinBlocks blocks) B (n + 1) parsed =
            (parsed + k + 4) ::
              batchLoopF (joinBlocks blocks) B n (parsed + k + 4) := by
          rw [batchLoopF, if_pos hlt, hr]
        rw [herw] at he
        have hk : occursAt (joinBlocks blocks) (parsed + k) :=
          occursAt_window_sound _ parsed B k (rfind_sound _ k hr)
        have hkend : parsed + k + 4 ∈ blockEndsFrom 0 blocks :=
          (occursAt_joinBlocks blocks hD _).mp hk
        rcases List.mem_cons.mp he with rfl | he'
        · refine ⟨hkend, by omega, ?_⟩
          rw [show parsed + k + 4 - 4 = parsed + k by omega]
          exact hk
        · exact ih (parsed + k + 4) (Or.inr hkend) e he'
    · have herw : batchLoopF (joinBlocks blocks) B (n + 1) parsed = [] := by
        rw [batchLoopF, if_neg hlt]
      rw [herw] at he
      cases he

/-- Witness for `c2_batch_boundaries_block_aligned` at a single
two-character block and the lingual batch size 7000. -/
theorem c2_batch_boundaries_witness :
    (∀ b ∈ [['h', 'i']], List.length b + 4 ≤ 7000) ∧
    (∀ b ∈ [['h', 'i']], ¬ hasDelim b) ∧
    (∀ e ∈ batchEnds (joinBlocks [['h', 'i']]) 7000,
      e ∈ blockEndsFrom 0 [['h', 'i']] ∧ 4 ≤ e ∧
        occursAt (joinBlocks [['h', 'i']]) (e - 4)) := by
  have hB : ∀ b ∈ [['h', 'i']], List.length b + 4 ≤ 7000 := by decide
  have hD : ∀ b ∈ [['h', 'i']], ¬ hasDelim b := by
    intro b hb
    rw [List.mem_singleton] at hb
    subst hb
    rintro ⟨i, hocc⟩
    have := occursAt_le _ _ hocc
    simp at this
  exact ⟨hB, hD, c2_batch_boundaries_block_aligned [['h', 'i']] 7000 hB hD⟩

end Snorkel
